import Mathlib

/-!
Shallow embedding of the gomad multi-resolution time-series store
(`tsstore.go`) and the command poller's property extraction
(`handler.go`), together with proofs about the spec's claims.

Modelling conventions:
* Go `float64` values are embedded as `ℚ` (exact arithmetic).
* Timestamps produced by `time.Now()` are environment input; where a
  claim does not depend on them they are dropped from the segment model
  and only the value sequence of each segment file is tracked.
* File-system side effects (create/remove) are reflected in the
  in-memory segment list; I/O failures are injected through explicit
  oracle parameters where a claim is about error propagation.
-/

namespace Gomad

/-! ## Data model -/

/-- DataPoint (tsstore.go): a timestamp paired with a float64 value.
The timestamp is modelled as an opaque `Nat`, the value as `ℚ`. -/
structure DataPoint where
  Tstamp : Nat
  Val : ℚ
deriving DecidableEq, Repr

/-- TimeSeriesLog (tsstore.go): one segment file of a level.  `id` is the
decimal filename (`path` base) and `pts` the sequence of values appended
to the file so far (one gob record each; timestamps dropped). -/
structure TimeSeriesLog where
  id : Nat
  pts : List ℚ
deriving DecidableEq, Repr

/-- TimeSeries (tsstore.go): one level of the store.  `Path` is dropped
(only used to name files); the `LowerLevel` pointer is represented by
the position of the level in a chain list (see `addChain`). -/
structure TimeSeries where
  RollUp : Nat
  Cap : Nat
  Len : Nat
  NextID : Nat
  Logs : List TimeSeriesLog
  BatchLen : Nat
  BatchVal : ℚ
deriving DecidableEq, Repr

/-- BucketSize (tsstore.go line 335): `ts.Cap / 2` with integer division. -/
def TimeSeries.BucketSize (ts : TimeSeries) : Nat :=
  ts.Cap / 2

/-- The state of a level as produced by `NewTimeSeries` on a fresh
(nonexistent) directory: no logs, zero counters. -/
def freshLevel (rollUp cap : Nat) : TimeSeries :=
  { RollUp := rollUp, Cap := cap, Len := 0, NextID := 0, Logs := [],
    BatchLen := 0, BatchVal := 0 }

/-! ## Segment decoding (TimeSeriesLog.ReadAll, tsstore.go lines 206-229) -/

/-- Outcome of one `dec.Decode(&dp)` call of the gob decoder. -/
inductive DecodeResult where
  | ok (dp : DataPoint)
  | eof
  | decodeError
deriving DecidableEq, Repr

/-- The decode loop of `TimeSeriesLog.ReadAll` (tsstore.go lines
215-226): `err == nil` appends the point, `io.EOF` breaks, and any
other decode error is ignored and the loop continues (the
`return nil, err` branch is commented out in the source). -/
def readLoop : List DecodeResult → List DataPoint
  | [] => []
  | .ok dp :: rest => dp :: readLoop rest
  | .eof :: _ => []
  | .decodeError :: rest => readLoop rest

/-- Model of the gob decoder's call sequence on a file holding the valid
records `recs` followed by one partially-written trailing record: each
full record decodes, the truncated tail yields one non-EOF decode error,
and every later call reports EOF. -/
def truncatedStream (recs : List DataPoint) : List DecodeResult :=
  recs.map .ok ++ [.decodeError, .eof]

/-- `TimeSeriesLog.ReadAll` after a successful `os.Open`: runs the
decode loop and returns the collected data with a nil error (the only
error return left in the source is the open failure). -/
def TimeSeriesLog.ReadAllEvents (events : List DecodeResult) :
    Except String (List DataPoint) :=
  .ok (readLoop events)

/-! ## NextID recovery (NewTimeSeries, tsstore.go lines 322-329) -/

/-- Byte-wise lexicographic comparison of character lists, as Go's `<`
on strings (segment names are ASCII digits). -/
def charsLe : List Char → List Char → Bool
  | [], _ => true
  | _ :: _, [] => false
  | a :: as, b :: bs =>
    if a.toNat < b.toNat then true
    else if b.toNat < a.toNat then false
    else charsLe as bs

/-- Lexicographic `≤` on filenames. -/
def strLe (a b : String) : Bool :=
  charsLe a.toList b.toList

/-- Insertion step for lexicographic sorting of filenames. -/
def insertLe (s : String) : List String → List String
  | [] => [s]
  | t :: ts => if strLe s t then s :: t :: ts else t :: insertLe s ts

/-- `sort.Sort(TimeSeriesLogs(logs))`: lexicographic sort of the segment
file names (the paths share the directory, so path order is name order). -/
def sortLex (names : List String) : List String :=
  names.foldr insertLe []

/-- Model of `fmt.Sscanf(name, "%d", &nextID)`: parse the leading
decimal digit run; `none` when the name does not start with a digit
(in which case `Sscanf` leaves `nextID` unchanged). -/
def sscanfNat (s : String) : Option Nat :=
  let ds := s.toList.takeWhile (fun c => c.isDigit)
  if ds.isEmpty then none
  else some (ds.foldl (fun n c => n * 10 + (c.toNat - 48)) 0)

/-- NextID computation of `NewTimeSeries` (tsstore.go lines 322-329):
start from 0, sort the segment names, and if any exist parse the last
name with `Sscanf "%d"`.  Note the source never adds 1 to the parsed
value. -/
def nextIDOf (names : List String) : Nat :=
  let sorted := sortLex names
  match sorted.getLast? with
  | none => 0
  | some nm => (sscanfNat nm).getD 0

/-! ## Level Add (TimeSeries.Add, tsstore.go lines 340-380) -/

/-- Append a value to the current (last) segment, `currLog.Add(val)`
(tsstore.go line 365).  On an empty list this is the identity; the Go
source would panic there (`ts.Logs[len(ts.Logs)-1]` on an empty slice),
a case ruled out by the hypotheses of the theorems below and flagged by
`TimeSeries.AddChecked`. -/
def appendLast (v : ℚ) : List TimeSeriesLog → List TimeSeriesLog
  | [] => []
  | [s] => [{ s with pts := s.pts ++ [v] }]
  | s :: t :: rest => s :: appendLast v (t :: rest)

/-- The segment bookkeeping of `TimeSeries.Add` (tsstore.go lines
340-366): on a roll-over (`Len % BucketSize == 0`) trim the segment
list to its last two entries when it holds more than two (removing the
older files), open a new segment named `NextID`, and bump `NextID`;
then append the value to the current segment and count it. -/
def bumpLogs (v : ℚ) (ts : TimeSeries) : TimeSeries :=
  if ts.Len % ts.BucketSize = 0 then
    let kept := if ts.Logs.length > 2 then ts.Logs.drop (ts.Logs.length - 2)
      else ts.Logs
    { ts with Logs := appendLast v (kept ++ [{ id := ts.NextID, pts := [] }]),
              NextID := ts.NextID + 1, Len := ts.Len + 1 }
  else
    { ts with Logs := appendLast v ts.Logs, Len := ts.Len + 1 }

/-- One `TimeSeries.Add` call (tsstore.go lines 340-380), with the
recursive `ts.LowerLevel.Add` call factored out: the second component
is the argument of that call when the coalescing batch completes.
`hasLower` is `ts.LowerLevel != nil`. -/
def TimeSeries.Add (v : ℚ) (ts : TimeSeries) (hasLower : Bool) :
    TimeSeries × Option ℚ :=
  let l1 := bumpLogs v ts
  if hasLower then
    let bv := ts.BatchVal + v
    let bl := ts.BatchLen + 1
    if bl = ts.RollUp then
      ({ l1 with BatchLen := 0, BatchVal := 0 }, some (bv / (bl : ℚ)))
    else
      ({ l1 with BatchLen := bl, BatchVal := bv }, none)
  else (l1, none)

/-- A chain of levels linked by `LowerLevel` pointers, finest first:
`l :: rest` is the level `l` whose `LowerLevel` is the head of `rest`
(`rest = []` means `LowerLevel == nil`).  `addChain` is `TimeSeries.Add`
including its recursive call into the lower level. -/
def addChain (v : ℚ) : List TimeSeries → List TimeSeries
  | [] => []
  | l :: rest =>
    match TimeSeries.Add v l (!rest.isEmpty) with
    | (l1, some m) => l1 :: addChain m rest
    | (l1, none) => l1 :: rest

/-- Fold a sequence of `Add` calls over a chain of levels. -/
def addAll (vs : List ℚ) (c : List TimeSeries) : List TimeSeries :=
  vs.foldl (fun c v => addChain v c) c

/-- Fold a sequence of `Add` calls over a single level with no lower
level. -/
def addAll1 (vs : List ℚ) (l : TimeSeries) : TimeSeries :=
  vs.foldl (fun l v => (TimeSeries.Add v l false).1) l

/-- Fold a sequence of `Add` calls over a level that has a lower level,
tracking only that level's own state. -/
def addAllTop (vs : List ℚ) (l : TimeSeries) : TimeSeries :=
  vs.foldl (fun l v => (TimeSeries.Add v l true).1) l

/-- `TimeSeries.ReadAll` (tsstore.go lines 383-394): concatenation of
every segment's contents in list order. -/
def TimeSeries.ReadAll (ts : TimeSeries) : List ℚ :=
  (ts.Logs.map TimeSeriesLog.pts).flatten

/-- `NewTimeSeriesTable` (tsstore.go lines 426-446) as a chain:
`tsProps` is listed finest-first and the loop links each level to the
previously-built coarser one, so the chain (finest first, each level
followed by its lower level) is the props list itself, each level
fresh.  The Go `TS` field stores the same levels coarsest-first, see
`tableTS`. -/
def newTableChain (props : List (Nat × Nat)) : List TimeSeries :=
  props.map (fun p => freshLevel p.1 p.2)

/-- The `TS` field of `TimeSeriesTable`: levels ordered coarsest first
(`TopLevel` is the last entry), i.e. the chain reversed. -/
def tableTS (chain : List TimeSeries) : List TimeSeries :=
  chain.reverse

/-! ## Fallible Add (I/O oracles and panics) -/

/-- Abnormal outcomes of one `TimeSeries.Add`: the runtime panics of
`Len % BucketSize()` with `BucketSize() == 0` and of indexing an empty
`Logs` slice, and an error returned by `NewTimeSeriesLog` during
roll-over. -/
inductive AddErr where
  | panicDivZero
  | panicNoCurrent
  | openFail (e : String)
deriving DecidableEq, Repr

/-- `TimeSeries.Add` with explicit I/O oracles, for a level with
`LowerLevel == nil`.  `openErr` is the outcome of `NewTimeSeriesLog` at
a roll-over (`some e` means it fails with `e`, and per the source the
error is returned after the eviction already happened).  `encOk` tells
whether `currLog.Add(val)`, i.e. `enc.Encode`, succeeds; the source
drops its return value (tsstore.go line 365), so a false `encOk` loses
the record but never surfaces: `Len` is still incremented and `nil` is
returned. -/
def TimeSeries.AddChecked (openErr : Option String) (encOk : Bool) (v : ℚ)
    (ts : TimeSeries) : Except AddErr TimeSeries :=
  if ts.BucketSize = 0 then .error .panicDivZero
  else if ts.Len % ts.BucketSize = 0 then
    match openErr with
    | some e => .error (.openFail e)
    | none =>
      let kept := if ts.Logs.length > 2 then ts.Logs.drop (ts.Logs.length - 2)
        else ts.Logs
      let logs1 := kept ++ [{ id := ts.NextID, pts := [] }]
      .ok { ts with Logs := if encOk then appendLast v logs1 else logs1,
                    NextID := ts.NextID + 1, Len := ts.Len + 1 }
  else if ts.Logs.isEmpty then .error .panicNoCurrent
  else
    .ok { ts with Logs := if encOk then appendLast v ts.Logs else ts.Logs,
                  Len := ts.Len + 1 }

/-- Whether an `Except` result is a success. -/
def exceptOk : Except AddErr TimeSeries → Bool
  | .ok _ => true
  | .error _ => false

/-! ## Chunk means (specification side of claim C8) -/

/-- Arithmetic mean of a list of rationals. -/
def listMean (xs : List ℚ) : ℚ :=
  xs.sum / (xs.length : ℚ)

/-- Means of the successive complete chunks of `R` values of `vs`, in
order; a trailing incomplete chunk produces nothing. -/
def chunkMeans (R : Nat) (vs : List ℚ) : List ℚ :=
  if _h : R = 0 ∨ vs.length < R then []
  else listMean (vs.take R) :: chunkMeans R (vs.drop R)
termination_by vs.length
decreasing_by
  simp only [List.length_drop]
  omega

/-- The coalescing automaton of `TimeSeries.Add` (tsstore.go lines
368-379) run over a value sequence from batch state `(b, s)`: the list
of values emitted to the lower level. -/
def chunkMeansAux (R : Nat) (b : Nat) (s : ℚ) : List ℚ → List ℚ
  | [] => []
  | v :: rest =>
    if b + 1 = R then ((s + v) / ((b + 1 : Nat) : ℚ)) :: chunkMeansAux R 0 0 rest
    else chunkMeansAux R (b + 1) (s + v) rest

/-! ## Property extraction (CommandHandler.Stat / Execute, handler.go
lines 597-637) -/

/-- The per-property line scan of `CommandHandler.Stat` (handler.go
lines 613-621).  `find` stands for `prop.Regex.FindStringSubmatch`
applied to one line: the whole match followed by the capture groups, or
`[]` when the line does not match.  Every line whose submatch list has
length exactly 2 overwrites `props[name]`; the scan never breaks, so
the final map entry comes from the last such line. -/
def scanProperty (find : String → List String) (lines : List String) :
    Option String :=
  lines.foldl
    (fun acc line =>
      let sub := find line
      if sub.length = 2 then some (sub.getD 1 "") else acc)
    none

/-- Model of `fmt.Sscanf(val, "%f", &floatVal)` in
`CommandHandler.Execute` (handler.go line 634): `parseF` is the
library's float parse; on failure `floatVal` keeps its zero value. -/
def sscanfFloat (parseF : String → Option ℚ) (s : String) : ℚ :=
  match parseF s with
  | some x => x
  | none => 0

/-- The `TS.Add` calls made by `CommandHandler.Execute` (handler.go
lines 626-637) for one property on one tick: the property is present in
`props` exactly when the scan produced a value, and in that case `Add`
is called once with the (best-effort) parsed float. -/
def executeAdds (parseF : String → Option ℚ) (find : String → List String)
    (lines : List String) : List ℚ :=
  match scanProperty find lines with
  | none => []
  | some s => [sscanfFloat parseF s]

/-! ## Concrete regex/parse instances used by counterexamples -/

/-- `FindStringSubmatch` of the regex `a ([0-9])` on the lines used in
the claim C3 counterexample: both lines match with one capture group. -/
def exFindC3 (line : String) : List String :=
  if line = "a 1" then ["a 1", "1"]
  else if line = "a 2" then ["a 2", "2"]
  else []

/-- `FindStringSubmatch` of the regex `v (\S+)` on the line used in the
claim C4 counterexample. -/
def exFindC4 (line : String) : List String :=
  if line = "v abc" then ["v abc", "abc"] else []

/-- A concrete float parse (`fmt.Sscanf "%f"` semantics on the strings
involved): `"abc"` is not a number, so the parse fails. -/
def exParse (s : String) : Option ℚ :=
  if s = "3" then some 3 else none

/-! ## Helper lemmas -/

lemma appendLast_length (v : ℚ) : ∀ l : List TimeSeriesLog,
    (appendLast v l).length = l.length
  | [] => rfl
  | [_] => rfl
  | _ :: t :: rest => by
    simp only [appendLast, List.length_cons, appendLast_length v (t :: rest)]

lemma find?_concat {α : Type} (p : α → Bool) : ∀ (l1 l2 : List α),
    (l1 ++ l2).find? p =
      match l1.find? p with
      | some x => some x
      | none => l2.find? p
  | [], _ => rfl
  | a :: l1, l2 => by
    cases h : p a <;> simp [List.find?, h, find?_concat p l1 l2]

lemma scanProperty_foldl (find : String → List String) :
    ∀ (lines : List String) (acc : Option String),
      lines.foldl
        (fun acc line =>
          let sub := find line
          if sub.length = 2 then some (sub.getD 1 "") else acc)
        acc =
      match lines.reverse.find? (fun ln => (find ln).length == 2) with
      | some ln => some ((find ln).getD 1 "")
      | none => acc
  | [], _ => by simp
  | x :: xs, acc => by
    rw [List.foldl_cons, scanProperty_foldl find xs, List.reverse_cons,
      find?_concat]
    cases hfind : xs.reverse.find? (fun ln => (find ln).length == 2) with
    | some ln => rfl
    | none =>
      by_cases h2 : (find x).length = 2
      · have hb : ((find x).length == 2) = true := by simpa using h2
        simp [List.find?, hb, h2]
      · have hb : ((find x).length == 2) = false := by simpa using h2
        simp [List.find?, hb, h2]

/-! ## Claim theorems -/

/-- C5: a segment file consisting of validly encoded records followed by
one truncated trailing record is read back by `ReadAll` as exactly the
full records, in order, with no error: the trailing decode error is
skipped and the subsequent EOF ends the scan. -/
theorem readAll_tolerates_truncated_tail (recs : List DataPoint) :
    TimeSeriesLog.ReadAllEvents (truncatedStream recs) = .ok recs := by
  unfold TimeSeriesLog.ReadAllEvents truncatedStream
  congr 1
  induction recs with
  | nil => rfl
  | cons dp rest ih => simpa [readLoop] using ih

/-- C1: the source parses `NextID` from the lexicographically-last
segment filename WITHOUT adding 1 (tsstore.go line 328), so a directory
whose segments are named "0", "1" yields `NextID = 1`, not 2 as the
spec states; the empty-directory case does give 0. -/
theorem nextIDOf_omits_increment :
    nextIDOf ["0", "1"] = 1 ∧ nextIDOf ["1", "0"] = 1 ∧ nextIDOf [] = 0 := by
  refine ⟨?_, ?_, rfl⟩ <;> decide

/-- C3 counterexample: on output lines "a 1" and "a 2", both matching a
one-group regex, the first matching line is "a 1" with capture "1", but
the scan of `CommandHandler.Stat` keeps overwriting and returns the
LAST capture "2" — the claim's "first line" is false. -/
theorem scanProperty_not_first_match :
    scanProperty exFindC3 ["a 1", "a 2"] = some "2"
    ∧ List.find? (fun ln => (exFindC3 ln).length == 2) ["a 1", "a 2"]
        = some "a 1"
    ∧ (exFindC3 "a 1").getD 1 "" = "1"
    ∧ ¬ scanProperty exFindC3 ["a 1", "a 2"] = some "1" := by
  refine ⟨?_, ?_, ?_, ?_⟩ <;> decide

/-- C3 amended: the property's current string value is taken from the
last line whose regex yields exactly two submatches (whole match plus
one capture group), scanning the lines in order. -/
theorem scanProperty_eq_last_match (find : String → List String)
    (lines : List String) :
    scanProperty find lines =
      (lines.reverse.find? (fun ln => (find ln).length == 2)).map
        (fun ln => (find ln).getD 1 "") := by
  unfold scanProperty
  rw [scanProperty_foldl]
  cases lines.reverse.find? (fun ln => (find ln).length == 2) <;> rfl

/-- C4 counterexample: the regex matches and captures "abc", the float
parse of "abc" fails, and yet `Execute` appends a sample — with value
0 — to the property's table, contradicting the claim that no sample is
appended on parse failure. -/
theorem executeAdds_parse_failure_appends_zero :
    exParse "abc" = none
    ∧ executeAdds exParse exFindC4 ["v abc"] = [0]
    ∧ ¬ executeAdds exParse exFindC4 ["v abc"] = [] := by
  refine ⟨?_, ?_, ?_⟩ <;> decide

/-- C4 amended: if a property's regex matches no output line, no sample
is appended for that tick (and nothing is reported); if a line matches
but the captured string fails to parse as a float, one sample with
value 0 is appended, silently. -/
theorem executeAdds_skip_and_zero (parseF : String → Option ℚ)
    (find : String → List String) (lines : List String) :
    (scanProperty find lines = none → executeAdds parseF find lines = [])
    ∧ (∀ s, scanProperty find lines = some s → parseF s = none →
        executeAdds parseF find lines = [0]) := by
  constructor
  · intro h
    simp [executeAdds, h]
  · intro s hs hp
    simp [executeAdds, hs, sscanfFloat, hp]

/-- C4 witness: concrete instance of the amended claim. -/
theorem executeAdds_skip_and_zero_witness :
    scanProperty exFindC4 ["v abc"] = some "abc"
    ∧ exParse "abc" = none
    ∧ executeAdds exParse exFindC4 ["v abc"] = [0] :=
  ⟨by decide, by decide,
    (executeAdds_skip_and_zero exParse exFindC4 ["v abc"]).2 "abc"
      (by decide) (by decide)⟩

/-- C2 counterexample: on the very first `Add` of a fresh level
(roll-over, successful segment open) a failing `enc.Encode` — an I/O
error while appending the encoded record — is NOT returned: the
source drops `currLog.Add(val)`'s return value and `Add` succeeds. -/
theorem addChecked_encode_error_dropped :
    exceptOk (TimeSeries.AddChecked none false 1 (freshLevel 60 4)) = true := by
  decide

/-- C2 amended: `TimeSeries.Add` returns an error exactly when a
roll-over occurs and opening the new segment fails; an encode error
from `Segment.Add` is silently discarded and the call still succeeds
(and, in `handler.go`, `CommandHandler.Execute` additionally ignores
the value `Table.Add` returns — only `CPULoadHandler.Execute` treats it
as fatal). -/
theorem addChecked_error_iff (o : Option String) (encOk : Bool) (v : ℚ)
    (ts : TimeSeries) (hcap : 2 ≤ ts.Cap)
    (hcur : ts.Len % ts.BucketSize ≠ 0 → ts.Logs ≠ []) :
    exceptOk (TimeSeries.AddChecked o encOk v ts) = true
      ↔ (ts.Len % ts.BucketSize = 0 → o = none) := by
  have hb : ¬ ts.BucketSize = 0 := by
    simp only [TimeSeries.BucketSize]
    omega
  unfold TimeSeries.AddChecked
  rw [if_neg hb]
  by_cases hroll : ts.Len % ts.BucketSize = 0
  · rw [if_pos hroll]
    cases o with
    | none => simp [exceptOk]
    | some e => simp [exceptOk, hroll]
  · rw [if_neg hroll]
    have : ¬ ts.Logs.isEmpty := by
      simpa [List.isEmpty_iff] using hcur hroll
    rw [if_neg this]
    simp [exceptOk, hroll]

/-- C2 witness: the amended characterization at a concrete input — a
fresh level, encode failing, open succeeding: `Add` reports success. -/
theorem addChecked_error_iff_witness :
    2 ≤ (freshLevel 60 4).Cap
    ∧ exceptOk (TimeSeries.AddChecked none false 1 (freshLevel 60 4)) = true :=
  ⟨by decide,
    (addChecked_error_iff none false 1 (freshLevel 60 4) (by decide)
      (by decide)).mpr (by decide)⟩

/-- C10: the roll-over test `Len % BucketSize()` divides by zero exactly
when `cap < 2` (then `bucketSize = cap/2 = 0` and already the first
`Add` panics); with `cap ≥ 2` the bucket size is positive and no `Add`
ever divides by zero. -/
theorem addChecked_div_zero_iff (o : Option String) (encOk : Bool) (v : ℚ)
    (ts : TimeSeries) :
    (TimeSeries.AddChecked o encOk v ts = .error .panicDivZero ↔ ts.Cap < 2)
    ∧ (0 < ts.BucketSize ↔ 2 ≤ ts.Cap) := by
  constructor
  · unfold TimeSeries.AddChecked
    by_cases hb : ts.BucketSize = 0
    · rw [if_pos hb]
      simp only [TimeSeries.BucketSize] at hb
      constructor
      · intro _
        omega
      · intro _
        rfl
    · rw [if_neg hb]
      simp only [TimeSeries.BucketSize] at hb
      constructor
      · intro h
        split at h
        · split at h <;> simp_all
        · split at h <;> simp_all
      · intro h
        omega
  · simp only [TimeSeries.BucketSize]
    omega

/-- C10 witness: with `cap = 1` the very first `Add` on a fresh level
evaluates a modulo by zero; with `cap = 4` the bucket size is positive. -/
theorem addChecked_div_zero_iff_witness :
    (TimeSeries.AddChecked none true 1 (freshLevel 3 1)
        = .error .panicDivZero ↔ (freshLevel 3 1).Cap < 2)
    ∧ TimeSeries.AddChecked none true 1 (freshLevel 3 1)
        = .error .panicDivZero
    ∧ 0 < (freshLevel 3 4).BucketSize :=
  ⟨(addChecked_div_zero_iff none true 1 (freshLevel 3 1)).1, rfl, by decide⟩

lemma add_false (v : ℚ) (ts : TimeSeries) :
    TimeSeries.Add v ts false = (bumpLogs v ts, none) := rfl

lemma bumpLogs_logs_length (v : ℚ) (ts : TimeSeries) :
    (bumpLogs v ts).Logs.length =
      if ts.Len % ts.BucketSize = 0 then min ts.Logs.length 2 + 1
      else ts.Logs.length := by
  unfold bumpLogs
  by_cases hroll : ts.Len % ts.BucketSize = 0
  · rw [if_pos hroll, if_pos hroll]
    simp only [appendLast_length, List.length_append, List.length_cons,
      List.length_nil]
    by_cases h2 : ts.Logs.length > 2
    · rw [if_pos h2]
      simp only [List.length_drop]
      omega
    · rw [if_neg h2]
      omega
  · rw [if_neg hroll, if_neg hroll]
    simp [appendLast_length]

lemma addAll1_logs_le (vs : List ℚ) : ∀ ts : TimeSeries,
    ts.Logs.length ≤ 3 → (addAll1 vs ts).Logs.length ≤ 3 := by
  induction vs with
  | nil => intro ts h; simpa [addAll1] using h
  | cons v vs ih =>
    intro ts h
    have hstep : (bumpLogs v ts).Logs.length ≤ 3 := by
      rw [bumpLogs_logs_length]
      split <;> omega
    simpa [addAll1, add_false] using ih (bumpLogs v ts) hstep

/-- C6: starting from a freshly-created Level, after every sequence of
`Add` calls the level holds at most three segments; moreover at any
roll-over the segment list is first trimmed to its last two entries
(removing the excess oldest segments) and only then the new segment is
created, so the post-state holds `min old 2 + 1` segments. -/
theorem level_at_most_three_segments (r c : Nat) (vs : List ℚ) (v : ℚ)
    (ts : TimeSeries) (_hc : 2 ≤ c) :
    (addAll1 vs (freshLevel r c)).Logs.length ≤ 3
    ∧ (ts.Len % ts.BucketSize = 0 →
        (TimeSeries.Add v ts false).1.Logs.length = min ts.Logs.length 2 + 1) := by
  constructor
  · exact addAll1_logs_le vs (freshLevel r c) (by simp [freshLevel])
  · intro hroll
    rw [add_false, bumpLogs_logs_length, if_pos hroll]

/-- C6 witness: a concrete run of five `Add`s on a fresh level with
`cap = 2` (bucket size 1, a roll-over on every `Add`). -/
theorem level_at_most_three_segments_witness :
    2 ≤ 2
    ∧ (addAll1 [1, 2, 3, 4, 5] (freshLevel 1 2)).Logs.length ≤ 3
    ∧ (TimeSeries.Add 9 (freshLevel 1 2) false).1.Logs.length
        = min (freshLevel 1 2).Logs.length 2 + 1 :=
  ⟨by decide,
    (level_at_most_three_segments 1 2 [1, 2, 3, 4, 5] 9 (freshLevel 1 2)
      (by decide)).1,
    (level_at_most_three_segments 1 2 [1, 2, 3, 4, 5] 9 (freshLevel 1 2)
      (by decide)).2 (by decide)⟩

lemma bumpLogs_Cap (v : ℚ) (ts : TimeSeries) : (bumpLogs v ts).Cap = ts.Cap := by
  unfold bumpLogs
  split <;> rfl

lemma bumpLogs_Len (v : ℚ) (ts : TimeSeries) :
    (bumpLogs v ts).Len = ts.Len + 1 := by
  unfold bumpLogs
  split <;> rfl

lemma bumpLogs_BucketSize (v : ℚ) (ts : TimeSeries) :
    (bumpLogs v ts).BucketSize = ts.BucketSize := by
  simp [TimeSeries.BucketSize, bumpLogs_Cap]

lemma appendLast_concat (v : ℚ) (s : TimeSeriesLog) :
    ∀ xs : List TimeSeriesLog,
      appendLast v (xs ++ [s]) = xs ++ [{ s with pts := s.pts ++ [v] }]
  | [] => rfl
  | x :: xs => by
    cases hxs : xs ++ [s] with
    | nil => exact absurd hxs (by simp)
    | cons t rest =>
      show appendLast v (x :: (xs ++ [s])) = _
      rw [hxs, appendLast, ← hxs, appendLast_concat v s xs]
      rfl

/-- Shape invariant of a level reached from a fresh state by `Add`s:
either nothing was added yet, or the segment list is some full segments
(each holding exactly `b` points) followed by the current partially
filled one, with the arithmetic side conditions that drive the
retention bounds. -/
def InvShape (b : Nat) (ts : TimeSeries) : Prop :=
  (ts.Len = 0 ∧ ts.Logs = []) ∨
  (ts.Len ≠ 0 ∧ ∃ front s, ts.Logs = front ++ [s] ∧ front.length ≤ 2 ∧
    (∀ t ∈ front, t.pts.length = b) ∧
    1 ≤ s.pts.length ∧ s.pts.length ≤ b ∧
    ts.Len % b = s.pts.length % b ∧
    (b < ts.Len → 1 ≤ front.length))

lemma bumpLogs_roll (v : ℚ) (ts : TimeSeries)
    (hroll : ts.Len % ts.BucketSize = 0) :
    bumpLogs v ts = { ts with
      Logs := appendLast v
        ((if ts.Logs.length > 2 then ts.Logs.drop (ts.Logs.length - 2)
          else ts.Logs) ++ [{ id := ts.NextID, pts := [] }]),
      NextID := ts.NextID + 1, Len := ts.Len + 1 } := by
  unfold bumpLogs
  rw [if_pos hroll]

lemma bumpLogs_noroll (v : ℚ) (ts : TimeSeries)
    (hroll : ¬ ts.Len % ts.BucketSize = 0) :
    bumpLogs v ts =
      { ts with Logs := appendLast v ts.Logs, Len := ts.Len + 1 } := by
  unfold bumpLogs
  rw [if_neg hroll]

lemma invShape_step (v : ℚ) (ts : TimeSeries) (hb : 0 < ts.BucketSize)
    (h : InvShape ts.BucketSize ts) :
    InvShape ts.BucketSize (bumpLogs v ts) := by
  unfold InvShape at h ⊢
  rcases h with ⟨hlen0, hlogs0⟩ | ⟨hne, front, s, hlogs, hf2, hfb, hs1, hsb, hmod, hfk⟩
  · -- first ever Add: roll-over on an empty level
    have hroll : ts.Len % ts.BucketSize = 0 := by
      rw [hlen0]
      exact Nat.zero_mod _
    rw [bumpLogs_roll v ts hroll, hlogs0]
    right
    refine ⟨by simp [hlen0], [], { id := ts.NextID, pts := [v] }, ?_, by simp,
      by simp, by simp, by simpa using hb, ?_, ?_⟩
    · simp [appendLast]
    · simp [hlen0]
    · simp [hlen0]
      omega
  · by_cases hroll : ts.Len % ts.BucketSize = 0
    · -- roll-over: the current segment is full (holds exactly b points)
      have hsmod : s.pts.length % ts.BucketSize = 0 := by
        rw [← hmod]
        exact hroll
      have hsfull : s.pts.length = ts.BucketSize := by
        rcases Nat.dvd_of_mod_eq_zero hsmod with ⟨k, hk⟩
        match k, hk with
        | 0, hk => omega
        | 1, hk => omega
        | k + 2, hk =>
          have h2b : ts.BucketSize * 2 ≤ ts.BucketSize * (k + 2) :=
            Nat.mul_le_mul_left ts.BucketSize (by omega)
          omega
      have hall : ∀ t ∈ front ++ [s], t.pts.length = ts.BucketSize := by
        intro t ht
        rcases List.mem_append.1 ht with h' | h'
        · exact hfb t h'
        · simp only [List.mem_singleton] at h'
          rw [h', hsfull]
      rw [bumpLogs_roll v ts hroll, hlogs]
      have hkc := appendLast_concat v { id := ts.NextID, pts := [] }
        (if (front ++ [s]).length > 2 then
          (front ++ [s]).drop ((front ++ [s]).length - 2)
        else front ++ [s])
      right
      refine ⟨by simp, _, { id := ts.NextID, pts := [v] },
        by simpa using hkc, ?_, ?_, by simp, by simpa using hb, ?_, ?_⟩
      · split
        · simp only [List.length_drop, List.length_append,
            List.length_singleton]
          omega
        · simp only [List.length_append, List.length_singleton] at *
          omega
      · intro t ht
        split at ht
        · exact hall t (List.drop_subset _ _ ht)
        · exact hall t ht
      · show (ts.Len + 1) % ts.BucketSize = [v].length % ts.BucketSize
        simp only [List.length_singleton]
        rw [Nat.add_mod, hroll, Nat.zero_add, Nat.mod_mod_of_dvd 1 dvd_rfl]
      · intro _
        split
        · simp only [List.length_drop, List.length_append,
            List.length_singleton]
          omega
        · simp
    · -- no roll-over: append to the current segment
      have hslt : s.pts.length < ts.BucketSize := by
        rcases Nat.lt_or_ge s.pts.length ts.BucketSize with h' | h'
        · exact h'
        · have hEq : s.pts.length = ts.BucketSize := by omega
          rw [hEq, Nat.mod_self] at hmod
          exact absurd hmod hroll
      rw [bumpLogs_noroll v ts hroll, hlogs, appendLast_concat]
      right
      refine ⟨by simp, front, { s with pts := s.pts ++ [v] }, rfl, hf2, hfb,
        by simp, ?_, ?_, ?_⟩
      · simp only [List.length_append, List.length_singleton]
        omega
      · show (ts.Len + 1) % ts.BucketSize
          = (s.pts ++ [v]).length % ts.BucketSize
        simp only [List.length_append, List.length_singleton]
        rw [Nat.add_mod ts.Len 1, Nat.add_mod s.pts.length 1, hmod]
      · intro hlt
        have hlt' : ts.BucketSize < ts.Len + 1 := hlt
        apply hfk
        rcases Nat.lt_or_ge ts.BucketSize ts.Len with h' | h'
        · exact h'
        · have hEq : ts.BucketSize = ts.Len := by omega
          rw [← hEq, Nat.mod_self] at hroll
          exact absurd rfl hroll

lemma addAll1_cons (v : ℚ) (vs : List ℚ) (ts : TimeSeries) :
    addAll1 (v :: vs) ts = addAll1 vs (bumpLogs v ts) := by
  simp [addAll1, add_false]

lemma addAll1_invShape (vs : List ℚ) : ∀ ts : TimeSeries,
    0 < ts.BucketSize → InvShape ts.BucketSize ts →
    InvShape ts.BucketSize (addAll1 vs ts)
    ∧ (addAll1 vs ts).BucketSize = ts.BucketSize
    ∧ (addAll1 vs ts).Len = ts.Len + vs.length := by
  induction vs with
  | nil =>
    intro ts _ h
    exact ⟨h, rfl, by simp [addAll1]⟩
  | cons v vs ih =>
    intro ts hb h
    have hb' : 0 < (bumpLogs v ts).BucketSize := by
      rw [bumpLogs_BucketSize]
      exact hb
    have hshape' : InvShape (bumpLogs v ts).BucketSize (bumpLogs v ts) := by
      rw [bumpLogs_BucketSize]
      exact invShape_step v ts hb h
    obtain ⟨h1, h2, h3⟩ := ih (bumpLogs v ts) hb' hshape'
    rw [bumpLogs_BucketSize] at h1 h2
    rw [bumpLogs_Len] at h3
    refine ⟨?_, ?_, ?_⟩
    · rw [addAll1_cons]
      exact h1
    · rw [addAll1_cons]
      exact h2
    · rw [addAll1_cons, h3]
      simp only [List.length_cons]
      omega

lemma readAll_length (ts : TimeSeries) :
    (TimeSeries.ReadAll ts).length
      = (ts.Logs.map (fun s => s.pts.length)).sum := by
  unfold TimeSeries.ReadAll
  rw [List.length_flatten, List.map_map]
  rfl

lemma sum_const_lengths (b : Nat) : ∀ front : List TimeSeriesLog,
    (∀ t ∈ front, t.pts.length = b) →
    (front.map (fun s => s.pts.length)).sum = front.length * b
  | [], _ => by simp
  | t :: front, h => by
    have ht : t.pts.length = b := h t (by simp)
    have hrest := sum_const_lengths b front (fun u hu => h u (by simp [hu]))
    simp only [List.map_cons, List.sum_cons, List.length_cons, hrest, ht]
    ring

/-- C7: on a freshly-created Level with even `cap ≥ 2`, after any
sequence of `Add`s the number of samples `ReadAll` returns is at most
`cap + cap/2`, and as soon as `cap` samples have been added it never
drops below `cap/2`. -/
theorem level_readall_bounds (r c : Nat) (vs : List ℚ) (h2 : 2 ≤ c)
    (_heven : c % 2 = 0) :
    (TimeSeries.ReadAll (addAll1 vs (freshLevel r c))).length ≤ c + c / 2
    ∧ (c ≤ vs.length →
        c / 2 ≤ (TimeSeries.ReadAll (addAll1 vs (freshLevel r c))).length) := by
  have hfreshb : (freshLevel r c).BucketSize = c / 2 := rfl
  have hb : 0 < (freshLevel r c).BucketSize := by
    rw [hfreshb]
    omega
  have hinit : InvShape (freshLevel r c).BucketSize (freshLevel r c) :=
    Or.inl ⟨rfl, rfl⟩
  obtain ⟨hshape, _, hlen⟩ := addAll1_invShape vs (freshLevel r c) hb hinit
  rw [hfreshb] at hshape
  have hlen' : (addAll1 vs (freshLevel r c)).Len = vs.length := by
    rw [hlen]
    simp [freshLevel]
  rcases hshape with ⟨hl0, hlogs0⟩ | ⟨_, front, s, hlogs, hf2, hfb, hs1, hsb, hmod, hfk⟩
  · have hre : (TimeSeries.ReadAll (addAll1 vs (freshLevel r c))).length = 0 := by
      rw [readAll_length, hlogs0]
      rfl
    constructor
    · omega
    · intro hcle
      omega
  · have hsum : (TimeSeries.ReadAll (addAll1 vs (freshLevel r c))).length
        = front.length * (c / 2) + s.pts.length := by
      rw [readAll_length, hlogs, List.map_append, List.sum_append,
        sum_const_lengths (c / 2) front hfb]
      rfl
    have hmul : front.length * (c / 2) ≤ 2 * (c / 2) :=
      Nat.mul_le_mul_right (c / 2) hf2
    constructor
    · omega
    · intro hcle
      have hblt : c / 2 < (addAll1 vs (freshLevel r c)).Len := by omega
      have hfpos : 1 ≤ front.length := hfk hblt
      have hge : c / 2 ≤ front.length * (c / 2) :=
        Nat.le_mul_of_pos_left (c / 2) hfpos
      omega

/-- C7 witness: `cap = 2`, three values added. -/
theorem level_readall_bounds_witness :
    2 ≤ 2 ∧ 2 % 2 = 0 ∧ 2 ≤ ([1, 2, 3] : List ℚ).length
    ∧ (TimeSeries.ReadAll (addAll1 [1, 2, 3] (freshLevel 5 2))).length ≤ 2 + 2 / 2
    ∧ 2 / 2 ≤ (TimeSeries.ReadAll (addAll1 [1, 2, 3] (freshLevel 5 2))).length :=
  ⟨by decide, by decide, by decide,
    (level_readall_bounds 5 2 [1, 2, 3] (by decide) (by decide)).1,
    (level_readall_bounds 5 2 [1, 2, 3] (by decide) (by decide)).2 (by decide)⟩

lemma bumpLogs_RollUp (v : ℚ) (ts : TimeSeries) :
    (bumpLogs v ts).RollUp = ts.RollUp := by
  unfold bumpLogs
  split <;> rfl

lemma add_true_full (v : ℚ) (ts : TimeSeries)
    (h : ts.BatchLen + 1 = ts.RollUp) :
    TimeSeries.Add v ts true =
      ({ bumpLogs v ts with BatchLen := 0, BatchVal := 0 },
        some ((ts.BatchVal + v) / ((ts.BatchLen + 1 : Nat) : ℚ))) := by
  simp [TimeSeries.Add, h]

lemma add_true_notfull (v : ℚ) (ts : TimeSeries)
    (h : ¬ ts.BatchLen + 1 = ts.RollUp) :
    TimeSeries.Add v ts true =
      ({ bumpLogs v ts with
          BatchLen := ts.BatchLen + 1,
          BatchVal := ts.BatchVal + v }, none) := by
  simp [TimeSeries.Add, h]

lemma addAll_cons (v : ℚ) (vs : List ℚ) (c : List TimeSeries) :
    addAll (v :: vs) c = addAll vs (addChain v c) := rfl

lemma addAllTop_cons (v : ℚ) (vs : List ℚ) (ts : TimeSeries) :
    addAllTop (v :: vs) ts = addAllTop vs (TimeSeries.Add v ts true).1 := rfl

lemma chunkMeansAux_cons (R b : Nat) (s v : ℚ) (rest : List ℚ) :
    chunkMeansAux R b s (v :: rest)
      = if b + 1 = R
        then ((s + v) / ((b + 1 : Nat) : ℚ)) :: chunkMeansAux R 0 0 rest
        else chunkMeansAux R (b + 1) (s + v) rest := rfl

lemma addChain_length : ∀ (c : List TimeSeries) (v : ℚ),
    (addChain v c).length = c.length
  | [], _ => rfl
  | l :: rest, v => by
    unfold addChain
    cases hstep : TimeSeries.Add v l (!rest.isEmpty) with
    | mk l1 emit =>
      cases emit with
      | some m => simp [addChain_length rest m]
      | none => simp

lemma addChain_cons_emit (v : ℚ) (l l1 : TimeSeries) (m : ℚ)
    (rest : List TimeSeries)
    (h : TimeSeries.Add v l (!rest.isEmpty) = (l1, some m)) :
    addChain v (l :: rest) = l1 :: addChain m rest := by
  conv_lhs => unfold addChain
  rw [h]

lemma addChain_cons_none (v : ℚ) (l l1 : TimeSeries)
    (rest : List TimeSeries)
    (h : TimeSeries.Add v l (!rest.isEmpty) = (l1, none)) :
    addChain v (l :: rest) = l1 :: rest := by
  conv_lhs => unfold addChain
  rw [h]

lemma addChain_ne_nil {c : List TimeSeries} (h : c ≠ []) (v : ℚ) :
    addChain v c ≠ [] := by
  intro h0
  apply h
  have hl := addChain_length c v
  rw [h0] at hl
  exact List.length_eq_zero.1 hl.symm

/-- Decomposition of a chain run: the head level evolves by its own
`Add`s, and the lower chain receives exactly the emissions of the
head's coalescing automaton, in order. -/
lemma addAll_decompose : ∀ (vs : List ℚ) (l : TimeSeries)
    (rest : List TimeSeries), rest ≠ [] →
    addAll vs (l :: rest)
      = addAllTop vs l
        :: addAll (chunkMeansAux l.RollUp l.BatchLen l.BatchVal vs) rest
  | [], l, rest, _ => by simp [addAll, addAllTop, chunkMeansAux]
  | v :: vs, l, rest, hrest => by
    have hlow : (!rest.isEmpty) = true := by
      cases rest with
      | nil => exact absurd rfl hrest
      | cons a b => rfl
    rw [addAll_cons, addAllTop_cons, chunkMeansAux_cons]
    by_cases hfull : l.BatchLen + 1 = l.RollUp
    · have hstep := add_true_full v l hfull
      have hRu : (TimeSeries.Add v l true).1.RollUp = l.RollUp := by
        rw [hstep]
        simpa using bumpLogs_RollUp v l
      have hBl : (TimeSeries.Add v l true).1.BatchLen = 0 := by
        rw [hstep]
      have hBv : (TimeSeries.Add v l true).1.BatchVal = 0 := by
        rw [hstep]
      have hsnd : (TimeSeries.Add v l true).2
          = some ((l.BatchVal + v) / ((l.BatchLen + 1 : Nat) : ℚ)) := by
        rw [hstep]
      have hchain : addChain v (l :: rest)
          = (TimeSeries.Add v l true).1
            :: addChain ((l.BatchVal + v) / ((l.BatchLen + 1 : Nat) : ℚ)) rest :=
        addChain_cons_emit v l (TimeSeries.Add v l true).1 _ rest
          (by rw [hlow, ← hsnd])
      rw [hchain,
        addAll_decompose vs (TimeSeries.Add v l true).1
          (addChain ((l.BatchVal + v) / ((l.BatchLen + 1 : Nat) : ℚ)) rest)
          (addChain_ne_nil hrest _),
        hRu, hBl, hBv, if_pos hfull, addAll_cons]
    · have hstep := add_true_notfull v l hfull
      have hRu : (TimeSeries.Add v l true).1.RollUp = l.RollUp := by
        rw [hstep]
        simpa using bumpLogs_RollUp v l
      have hBl : (TimeSeries.Add v l true).1.BatchLen = l.BatchLen + 1 := by
        rw [hstep]
      have hBv : (TimeSeries.Add v l true).1.BatchVal = l.BatchVal + v := by
        rw [hstep]
      have hsnd : (TimeSeries.Add v l true).2 = none := by
        rw [hstep]
      have hchain : addChain v (l :: rest)
          = (TimeSeries.Add v l true).1 :: rest :=
        addChain_cons_none v l (TimeSeries.Add v l true).1 rest
          (by rw [hlow, ← hsnd])
      rw [hchain, addAll_decompose vs (TimeSeries.Add v l true).1 rest hrest,
        hRu, hBl, hBv, if_neg hfull]

lemma addAllTop_batch : ∀ (vs : List ℚ) (ts : TimeSeries),
    ts.BatchLen < ts.RollUp →
    (addAllTop vs ts).BatchLen = (ts.BatchLen + vs.length) % ts.RollUp
    ∧ (addAllTop vs ts).RollUp = ts.RollUp
  | [], ts, h => by
    constructor
    · simp [addAllTop, Nat.mod_eq_of_lt h]
    · rfl
  | v :: vs, ts, h => by
    rw [addAllTop_cons]
    by_cases hfull : ts.BatchLen + 1 = ts.RollUp
    · have hstep := add_true_full v ts hfull
      have hRu : (TimeSeries.Add v ts true).1.RollUp = ts.RollUp := by
        rw [hstep]
        simpa using bumpLogs_RollUp v ts
      have hBl : (TimeSeries.Add v ts true).1.BatchLen = 0 := by
        rw [hstep]
      have hR : 0 < ts.RollUp := by omega
      have hlt : (TimeSeries.Add v ts true).1.BatchLen
          < (TimeSeries.Add v ts true).1.RollUp := by
        rw [hRu, hBl]
        exact hR
      obtain ⟨h1, h2⟩ := addAllTop_batch vs _ hlt
      rw [hBl, hRu] at h1
      rw [hRu] at h2
      refine ⟨?_, h2⟩
      rw [h1, Nat.zero_add, List.length_cons]
      have harg : ts.BatchLen + (vs.length + 1)
          = ts.RollUp + vs.length := by omega
      rw [harg, Nat.add_mod_left]
    · have hstep := add_true_notfull v ts hfull
      have hRu : (TimeSeries.Add v ts true).1.RollUp = ts.RollUp := by
        rw [hstep]
        simpa using bumpLogs_RollUp v ts
      have hBl : (TimeSeries.Add v ts true).1.BatchLen = ts.BatchLen + 1 := by
        rw [hstep]
      have hlt : (TimeSeries.Add v ts true).1.BatchLen
          < (TimeSeries.Add v ts true).1.RollUp := by
        rw [hRu, hBl]
        omega
      obtain ⟨h1, h2⟩ := addAllTop_batch vs _ hlt
      rw [hBl, hRu] at h1
      rw [hRu] at h2
      refine ⟨?_, h2⟩
      rw [h1, List.length_cons]
      congr 1
      omega

lemma chunkMeansAux_nil_of_lt (R : Nat) :
    ∀ (vs : List ℚ) (b : Nat) (s : ℚ), b + vs.length < R →
    chunkMeansAux R b s vs = []
  | [], _, _, _ => rfl
  | v :: vs, b, s, h => by
    have hne : ¬ b + 1 = R := by
      simp only [List.length_cons] at h
      omega
    simp only [chunkMeansAux, hne, if_neg]
    exact chunkMeansAux_nil_of_lt R vs (b + 1) (s + v)
      (by simp only [List.length_cons] at h; omega)

lemma chunkMeansAux_chunk (R : Nat) :
    ∀ (xs : List ℚ) (b : Nat) (s : ℚ) (ys : List ℚ),
    b + xs.length = R → 0 < xs.length →
    chunkMeansAux R b s (xs ++ ys)
      = ((s + xs.sum) / (R : ℚ)) :: chunkMeansAux R 0 0 ys
  | [], _, _, _, _, hpos => absurd hpos (by simp)
  | [x], b, s, ys, hlen, _ => by
    have hfull : b + 1 = R := by simpa using hlen
    rw [List.singleton_append, chunkMeansAux_cons, if_pos hfull, hfull]
    simp
  | x :: x' :: xs, b, s, ys, hlen, _ => by
    have hne : ¬ b + 1 = R := by
      simp only [List.length_cons] at hlen
      omega
    rw [List.cons_append, chunkMeansAux_cons, if_neg hne]
    rw [chunkMeansAux_chunk R (x' :: xs) (b + 1) (s + x) ys
      (by simp only [List.length_cons] at hlen ⊢; omega) (by simp)]
    congr 2
    simp only [List.sum_cons]
    ring

lemma chunkMeansAux_eq (R : Nat) (hR : 0 < R) (vs : List ℚ) :
    chunkMeansAux R 0 0 vs = chunkMeans R vs := by
  rw [chunkMeans]
  by_cases h : vs.length < R
  · rw [dif_pos (Or.inr h)]
    exact chunkMeansAux_nil_of_lt R vs 0 0 (by omega)
  · rw [dif_neg (by omega)]
    have hsplit : vs = vs.take R ++ vs.drop R := (List.take_append_drop R vs).symm
    conv_lhs => rw [hsplit]
    rw [chunkMeansAux_chunk R (vs.take R) 0 0 (vs.drop R)
      (by simp only [List.length_take]; omega)
      (by simp only [List.length_take]; omega)]
    rw [chunkMeansAux_eq R hR (vs.drop R)]
    congr 1
    simp only [listMean, List.length_take]
    have : min R vs.length = R := by omega
    rw [this, zero_add]
termination_by vs.length
decreasing_by
  simp only [List.length_drop]
  omega

/-- C8: for a Level with `rollUp = R ≥ 1` and an empty coalescing batch
that has a lower level, any value sequence splits into complete chunks
of `R`: the lower chain receives exactly the arithmetic means of those
chunks, in order, one `Add` per chunk; after every `Add` the in-progress
batch length is `len % R`, hence always `< R`. -/
theorem level_coalescing (l : TimeSeries) (rest : List TimeSeries)
    (vs : List ℚ) (hR : 1 ≤ l.RollUp) (hb0 : l.BatchLen = 0)
    (hv0 : l.BatchVal = 0) (hrest : rest ≠ []) :
    addAll vs (l :: rest)
      = addAllTop vs l :: addAll (chunkMeans l.RollUp vs) rest
    ∧ (addAllTop vs l).BatchLen = vs.length % l.RollUp
    ∧ vs.length % l.RollUp < l.RollUp := by
  have hRpos : 0 < l.RollUp := hR
  have hdec := addAll_decompose vs l rest hrest
  rw [hb0, hv0, chunkMeansAux_eq l.RollUp hRpos] at hdec
  obtain ⟨hbatch, _⟩ := addAllTop_batch vs l (by rw [hb0]; exact hRpos)
  rw [hb0, Nat.zero_add] at hbatch
  exact ⟨hdec, hbatch, Nat.mod_lt _ hRpos⟩

/-- C8 witness: `rollUp = 2`, three values added over one lower level. -/
theorem level_coalescing_witness :
    1 ≤ (freshLevel 2 4).RollUp
    ∧ (freshLevel 2 4).BatchLen = 0
    ∧ addAll [1, 2, 3] (freshLevel 2 4 :: [freshLevel 3 6])
        = addAllTop [1, 2, 3] (freshLevel 2 4)
          :: addAll (chunkMeans (freshLevel 2 4).RollUp [1, 2, 3])
              [freshLevel 3 6]
    ∧ (addAllTop [1, 2, 3] (freshLevel 2 4)).BatchLen
        = ([1, 2, 3] : List ℚ).length % (freshLevel 2 4).RollUp :=
  ⟨by decide, rfl,
    (level_coalescing (freshLevel 2 4) [freshLevel 3 6] [1, 2, 3]
      (by decide) rfl rfl (by simp)).1,
    (level_coalescing (freshLevel 2 4) [freshLevel 3 6] [1, 2, 3]
      (by decide) rfl rfl (by simp)).2.1⟩

/-! ## Table chaining (claim C9) -/

lemma add_true_len (v : ℚ) (ts : TimeSeries) :
    (TimeSeries.Add v ts true).1.Len = ts.Len + 1 := by
  by_cases hfull : ts.BatchLen + 1 = ts.RollUp
  · rw [add_true_full v ts hfull]
    exact bumpLogs_Len v ts
  · rw [add_true_notfull v ts hfull]
    exact bumpLogs_Len v ts

lemma addAllTop_len : ∀ (vs : List ℚ) (ts : TimeSeries),
    (addAllTop vs ts).Len = ts.Len + vs.length
  | [], ts => by simp [addAllTop]
  | v :: vs, ts => by
    rw [addAllTop_cons, addAllTop_len vs, add_true_len, List.length_cons]
    omega

lemma addAll1_len : ∀ (vs : List ℚ) (ts : TimeSeries),
    (addAll1 vs ts).Len = ts.Len + vs.length
  | [], ts => by simp [addAll1]
  | v :: vs, ts => by
    rw [addAll1_cons, addAll1_len vs, bumpLogs_Len, List.length_cons]
    omega

lemma addAll_singleton : ∀ (vs : List ℚ) (l : TimeSeries),
    addAll vs [l] = [addAll1 vs l]
  | [], _ => rfl
  | v :: vs, l => by
    have hchain : addChain v [l] = [bumpLogs v l] :=
      addChain_cons_none v l (bumpLogs v l) [] (add_false v l)
    rw [addAll_cons, hchain, addAll_singleton vs (bumpLogs v l), addAll1_cons]

lemma chunkMeansAux_length (R : Nat) (hR : 0 < R) :
    ∀ (vs : List ℚ) (b : Nat) (s : ℚ), b < R →
    (chunkMeansAux R b s vs).length = (b + vs.length) / R
  | [], b, _, hb => by
    simp [chunkMeansAux, Nat.div_eq_of_lt hb]
  | v :: vs, b, s, hb => by
    rw [chunkMeansAux_cons]
    by_cases hfull : b + 1 = R
    · rw [if_pos hfull, List.length_cons,
        chunkMeansAux_length R hR vs 0 0 hR]
      have harg : b + (v :: vs).length = vs.length + R := by
        simp only [List.length_cons]
        omega
      rw [harg, Nat.add_div_right _ hR, Nat.zero_add]
    · rw [if_neg hfull,
        chunkMeansAux_length R hR vs (b + 1) (s + v) (by omega)]
      congr 1
      simp only [List.length_cons]
      omega

lemma chunkMeans_length (R : Nat) (hR : 0 < R) (vs : List ℚ) :
    (chunkMeans R vs).length = vs.length / R := by
  rw [← chunkMeansAux_eq R hR, chunkMeansAux_length R hR vs 0 0 hR,
    Nat.zero_add]

/-- C9 amended: in a Table built from `[(R0,C0),(R1,C1),(R2,C2)]` listed
finest-first, `Add` enters at the finest level (the chain head built
from props index 0), and adding `N = R0·R1` samples at the top yields
exactly `N/R0` samples at level 1 (the middle time series `TS[1]`) and
`N/(R0·R1)` samples at level 0 (the coarsest, `TS[0]`). -/
theorem table_chaining (R0 R1 R2 C0 C1 C2 : Nat) (vs : List ℚ)
    (hR0 : 1 ≤ R0) (hR1 : 1 ≤ R1) (_hC0 : 2 ≤ C0) (_hC1 : 2 ≤ C1)
    (_hC2 : 2 ≤ C2) (hlen : vs.length = R0 * R1) :
    newTableChain [(R0, C0), (R1, C1), (R2, C2)]
      = [freshLevel R0 C0, freshLevel R1 C1, freshLevel R2 C2]
    ∧ ((tableTS (addAll vs (newTableChain [(R0, C0), (R1, C1), (R2, C2)])))[1]?).map
        TimeSeries.Len = some R1
    ∧ ((tableTS (addAll vs (newTableChain [(R0, C0), (R1, C1), (R2, C2)])))[0]?).map
        TimeSeries.Len = some 1 := by
  have hR0p : 0 < R0 := hR0
  have hR1p : 0 < R1 := hR1
  have hchain : newTableChain [(R0, C0), (R1, C1), (R2, C2)]
      = freshLevel R0 C0 :: freshLevel R1 C1 :: [freshLevel R2 C2] := rfl
  have hres : addAll vs (newTableChain [(R0, C0), (R1, C1), (R2, C2)])
      = addAllTop vs (freshLevel R0 C0)
        :: addAllTop (chunkMeans R0 vs) (freshLevel R1 C1)
        :: [addAll1 (chunkMeans R1 (chunkMeans R0 vs)) (freshLevel R2 C2)] := by
    rw [hchain]
    rw [addAll_decompose vs (freshLevel R0 C0)
      (freshLevel R1 C1 :: [freshLevel R2 C2]) (by simp)]
    have hf0 : chunkMeansAux (freshLevel R0 C0).RollUp
        (freshLevel R0 C0).BatchLen (freshLevel R0 C0).BatchVal vs
        = chunkMeans R0 vs := chunkMeansAux_eq R0 hR0p vs
    rw [hf0]
    rw [addAll_decompose (chunkMeans R0 vs) (freshLevel R1 C1)
      [freshLevel R2 C2] (by simp)]
    have hf1 : chunkMeansAux (freshLevel R1 C1).RollUp
        (freshLevel R1 C1).BatchLen (freshLevel R1 C1).BatchVal
        (chunkMeans R0 vs)
        = chunkMeans R1 (chunkMeans R0 vs) :=
      chunkMeansAux_eq R1 hR1p (chunkMeans R0 vs)
    rw [hf1, addAll_singleton]
  have hmid : (addAllTop (chunkMeans R0 vs) (freshLevel R1 C1)).Len = R1 := by
    rw [addAllTop_len, chunkMeans_length R0 hR0p]
    have hfl : (freshLevel R1 C1).Len = 0 := rfl
    rw [hfl, Nat.zero_add, hlen, Nat.mul_div_cancel_left R1 hR0p]
  have hcoarse :
      (addAll1 (chunkMeans R1 (chunkMeans R0 vs)) (freshLevel R2 C2)).Len
        = 1 := by
    rw [addAll1_len, chunkMeans_length R1 hR1p, chunkMeans_length R0 hR0p]
    have hfl : (freshLevel R2 C2).Len = 0 := rfl
    rw [hfl, Nat.zero_add, Nat.div_div_eq_div_mul, hlen,
      Nat.div_self (by positivity)]
  refine ⟨rfl, ?_, ?_⟩
  · rw [hres]
    simp only [tableTS, List.reverse_cons, List.reverse_nil, List.nil_append,
      List.cons_append, List.singleton_append, List.getElem?_cons_zero,
      List.getElem?_cons_succ]
    simp [hmid]
  · rw [hres]
    simp only [tableTS, List.reverse_cons, List.reverse_nil, List.nil_append,
      List.cons_append, List.singleton_append, List.getElem?_cons_zero]
    simp [hcoarse]

/-- C9 counterexample: with levels `[(2,4),(3,4),(5,4)]` finest-first
and `N = R1·R2 = 15` samples added at the top, the claim predicts
`N/R2 = 3` samples at level 1 and `N/(R2·R1) = 1` at level 0; the code
coalesces by each level's OWN roll-up (`R0 = 2` at the top, then
`R1 = 3`), so level 1 receives 7 samples and level 0 receives 2. -/
theorem table_chaining_cex :
    ((tableTS (addAll (List.replicate 15 (0 : ℚ))
        (newTableChain [(2, 4), (3, 4), (5, 4)])))[1]?).map TimeSeries.Len
      = some 7
    ∧ ((tableTS (addAll (List.replicate 15 (0 : ℚ))
        (newTableChain [(2, 4), (3, 4), (5, 4)])))[0]?).map TimeSeries.Len
      = some 2
    ∧ ¬ (((tableTS (addAll (List.replicate 15 (0 : ℚ))
          (newTableChain [(2, 4), (3, 4), (5, 4)])))[1]?).map TimeSeries.Len
            = some 3
        ∧ ((tableTS (addAll (List.replicate 15 (0 : ℚ))
          (newTableChain [(2, 4), (3, 4), (5, 4)])))[0]?).map TimeSeries.Len
            = some 1) := by
  refine ⟨?_, ?_, ?_⟩ <;> decide

/-- C9 witness: the amended chaining counts at `R0 = 2, R1 = 3`,
`N = 6`. -/
theorem table_chaining_witness :
    (List.replicate 6 (0 : ℚ)).length = 2 * 3
    ∧ ((tableTS (addAll (List.replicate 6 (0 : ℚ))
        (newTableChain [(2, 4), (3, 4), (5, 4)])))[1]?).map TimeSeries.Len
        = some 3
    ∧ ((tableTS (addAll (List.replicate 6 (0 : ℚ))
        (newTableChain [(2, 4), (3, 4), (5, 4)])))[0]?).map TimeSeries.Len
        = some 1 :=
  ⟨by decide,
    (table_chaining 2 3 5 4 4 4 (List.replicate 6 (0 : ℚ)) (by decide)
      (by decide) (by decide) (by decide) (by decide) (by decide)).2.1,
    (table_chaining 2 3 5 4 4 4 (List.replicate 6 (0 : ℚ)) (by decide)
      (by decide) (by decide) (by decide) (by decide) (by decide)).2.2⟩

end Gomad
